import Mathlib

/-!
# govim: buffer synchronisation, edit application, completion, navigation, work queue

A shallow embedding of `cmd/govim/functions.go` and `internal/queue/queue.go`.

* Go methods on `*govimplugin` / `*vimstate` become functions on an explicit `State`
  (the plugin fields, the editor behind `plugin.Driver`, and the trace of calls made to
  the language server).
* What a method reads from its environment in the course of one call (the result of
  `fetchCurrentBufferInfo`, of `cursorPos`, the reply of the language server) is an explicit
  argument.
* A Go `error` result is `Option Err` (`none` is `nil`); a method that can also run into a
  nil dereference returns a `Result`.
* `Logf` only writes to the log file and is left out.
-/

namespace Govim

/-! ## internal/queue/queue.go -/

/-- The type `Queue` of queue.go. `work` is the slice of tasks; `signals` counts the
`signalWork` goroutines started so far (each blocks on the unbuffered `gotwork` channel
until a consumer receives). The mutex makes every method atomic, so each is one function. -/
structure Queue (α : Type) where
  work : List α
  signals : Nat

namespace Queue

/-- Go `NewQueue`. -/
def NewQueue {α : Type} : Queue α :=
  { work := [], signals := 0 }

/-- Go `Queue.Get`: `ok = len(q.work) > 0`; when ok, pops the head. The named result `work`
stays `nil` (`none`) when the queue is empty. -/
def Get {α : Type} (q : Queue α) : (Option α × Bool) × Queue α :=
  match q.work with
  | [] => ((none, false), q)
  | w :: rest => ((some w, true), { q with work := rest })

/-- Go `Queue.Add`: `q.work = append(q.work, f)`, then `go q.signalWork()`. -/
def Add {α : Type} (q : Queue α) (f : α) : Queue α :=
  { work := q.work ++ [f], signals := q.signals + 1 }

/-- Go `Queue.Set`: `q.work = []func(){f}`, then `go q.signalWork()`. -/
def Set {α : Type} (q : Queue α) (f : α) : Queue α :=
  { work := [f], signals := q.signals + 1 }

/-- The results of `n` successive calls of `Get`, and the queue left behind. -/
def getN {α : Type} : Nat → Queue α → List (Option α × Bool) × Queue α
  | 0, q => ([], q)
  | n + 1, q =>
    let r := q.Get
    let rs := getN n r.2
    (r.1 :: rs.1, rs.2)

end Queue

/-! ## Values of the `types`, `protocol` and `config` packages used by functions.go -/

/-- The errors functions.go returns: `external` is an error handed back unchanged from a
collaborator (`fetchCurrentBufferInfo`, `server.DidOpen`, `server.DidChange`); every other
constructor is one `fmt.Errorf` call site and keeps the values the message is formatted from
(a wrapped collaborator error is kept as its text). -/
inductive Err
  | external (msg : String)
  | notSeenBuffer (num : Int) (name : String)
  | formattingFailed (msg : String)
  | codeActionFailed (msg : String)
  | wrongActionCount (got : Nat)
  | unknownFormatTool (tool : String)
  | startPoint (msg : String)
  | endPoint (msg : String)
  | colNotOne (startLine startCol endLine endCol : Int)
  | multiLineWithText (newText : String)
  | deletebuflineFailed (num first last : Int)
  | cursorPosFailed (msg : String)
  | completionFailed (msg : String)
  | unknownMode (mode : String)
  | definitionFailed (msg : String)
  | multipleLocations (n : Nat)
  | pointFailed (msg : String)
deriving DecidableEq

/-- How a call of a Go method ends: it returns normally (`ok`), returns a non-nil `error`,
or panics on a nil dereference. -/
inductive Result (α : Type)
  | ok (a : α)
  | error (e : Err)
  | panic
deriving DecidableEq

/-- The type `types.Buffer`, with the fields functions.go reads and writes. Package `types`
is not among the sources, so the Go type of `Version` is not known here; it is a
mathematical integer, as is the `float64(b.Version)` put into the protocol messages (the
conversion is exact for every version below 2^53). -/
structure Buffer where
  Num : Int
  Name : String
  Contents : String
  Version : Int
deriving DecidableEq

/-- The type `protocol.Position`: zero-based line and column (numbers of the protocol, kept
as naturals). -/
structure Position where
  Line : Nat
  Character : Nat
deriving DecidableEq

/-- The type `protocol.Range`. -/
structure Range where
  Start : Position
  End : Position
deriving DecidableEq

/-- The type `protocol.TextEdit`. -/
structure TextEdit where
  Range : Range
  NewText : String
deriving DecidableEq

/-- The type `types.Point`: one-based line and column in the editor (`Line()`, `Col()`). -/
structure Point where
  Line : Int
  Col : Int
deriving DecidableEq

/-- The type `protocol.Location`. -/
structure Location where
  URI : String
  Range : Range
deriving DecidableEq

/-- The type `protocol.CompletionItem`, with the fields `complete` reads. `TextEdit` is a
pointer, as the optional fields of this package are (compare `Changes` below): `none` is
the nil pointer of an item that comes without a text edit. -/
structure CompletionItem where
  Label : String
  Detail : String
  TextEdit : Option TextEdit
deriving DecidableEq

/-- The type `protocol.CompletionList`. -/
structure CompletionList where
  Items : List CompletionItem
deriving DecidableEq

/-- The type `completionResult` of functions.go. -/
structure completionResult where
  Abbr : String
  Word : String
  Info : String
deriving DecidableEq

/-- The type `protocol.WorkspaceEdit`: `Changes` is a pointer to a map from URI to edits
(`none` is the nil pointer; a key absent from the map gives the nil slice). -/
structure WorkspaceEdit where
  Changes : Option (String → List TextEdit)

/-- The type `protocol.CodeAction`, with the field `formatCurrentBuffer` reads. -/
structure CodeAction where
  Edit : WorkspaceEdit

/-- The type `jumpPos` of the jump stack; it is declared outside functions.go and nothing in
functions.go builds one. -/
structure jumpPos where
  BufNr : Int
  Pos : Point
deriving DecidableEq

/-- What functions.go uses from packages `types` and `config`, whose source is not part of
this development: the methods `Buffer.URI` / `Buffer.ToTextDocumentIdentifier`,
`types.PointFromPosition`, `Point.ToPosition`, and the constants `config.FormatOnSaveGoFmt`,
`config.FormatOnSaveGoImports`, `config.GoToDefModeTab/Split/Vsplit`. Every function below
takes them as a parameter. -/
structure Deps where
  URI : Buffer → String
  PointFromPosition : Buffer → Position → Except String Point
  ToPosition : Point → Position
  FormatOnSaveGoFmt : String
  FormatOnSaveGoImports : String
  GoToDefModes : List String

/-! ## Go string helpers -/

/-- Worker of `Split`: `acc` holds the characters of the current piece, last first. -/
def splitAux : List Char → List Char → List String
  | acc, [] => [String.mk acc.reverse]
  | acc, c :: cs =>
    if c = '\n' then String.mk acc.reverse :: splitAux [] cs else splitAux (c :: acc) cs

/-- Go `strings.Split(s, "\n")`. -/
def Split (s : String) : List String :=
  splitAux [] s.data

/-- Lines 199-201: `if e.NewText[len(e.NewText)-1] == '\n' { e.NewText = e.NewText[:len-1] }`. -/
def trimNewline (s : String) : String :=
  if s.data.getLast? = some '\n' then String.mk s.data.dropLast else s

/-- Go `strings.TrimPrefix(s, "file://")`. -/
def trimFilePrefix (s : String) : String :=
  if "file://".data.isPrefixOf s.data then String.mk (s.data.drop 7) else s

/-! ## The editor behind `plugin.Driver` -/

/-- The commands functions.go sends with `ChannelEx` / `ChannelExf`. -/
inductive ExCmd
  /-- The command `set eventignore=<v>`. -/
  | setEventignore (v : String)
  /-- The command `let &switchbuf=<v>`. -/
  | letSwitchbuf (v : String)
  /-- The command `normal! <keys>`. -/
  | normal (keys : String)
  /-- The command `<cmd> <file>`, where cmd is `edit` or `hide edit`. -/
  | openFile (cmd : String) (file : String)
  /-- Any other command (`echom ...`, `echorerr ...`): no effect on the modelled state. -/
  | other (text : String)
deriving DecidableEq

/-- One entry of the trace of what was sent to the editor. -/
inductive VimCall
  | ex (c : ExCmd)
  | deletebufline (num first last : Int)
  | append (lnum : Int) (text : List String)
  | cursor (line col : Int)
deriving DecidableEq

/-- The editor state functions.go reads and changes: the number of the current buffer (which
is what `Viewport().Current.BufNr` reports), the lines of every loaded buffer, the options
`eventignore`, `switchbuf`, `modified`, the variable `g:govim_format_on_save`, the cursor,
the buffer number the editor gives a file name, the id of the current window, and the trace
of calls received. -/
structure Vim where
  cur : Int
  winid : Int
  bufs : Int → Option (List String)
  eventignore : String
  switchbuf : String
  modified : Int
  formatOnSave : String
  cursor : Int × Int
  fileBuf : String → Int
  log : List VimCall

/-- Function update of a Go map: `m[k] = v`. -/
def setKey {β : Type} (m : Int → Option β) (k : Int) (v : β) : Int → Option β :=
  fun k' => if k' = k then some v else m k'

namespace Vim

/-- The editor executing a command sent with `ChannelEx`. -/
def ChannelEx (v : Vim) (c : ExCmd) : Vim :=
  let v := { v with log := v.log ++ [VimCall.ex c] }
  match c with
  | .setEventignore x => { v with eventignore := x }
  | .letSwitchbuf x => { v with switchbuf := x }
  | .normal _ => v
  | .openFile _ file => { v with cur := v.fileBuf file, cursor := (1, 1) }
  | .other _ => v

/-- The editor function `deletebufline(num, first, last)`: deletes lines `first..last`
(one-based, inclusive, `last` clamped to the line count) of buffer `num`; returns 0, or 1
when the buffer is not loaded or the range is not valid, in which case nothing changes. -/
def deletebufline (v : Vim) (num first last : Int) : Vim × Int :=
  let v := { v with log := v.log ++ [VimCall.deletebufline num first last] }
  match v.bufs num with
  | none => (v, 1)
  | some ls =>
    if first < 1 ∨ (ls.length : Int) < first ∨ last < first then (v, 1)
    else
      let ls' := ls.take (first - 1).toNat ++ ls.drop (min last ls.length).toNat
      ({ v with bufs := setKey v.bufs num ls' }, 0)

/-- The editor function `append(lnum, text)`: inserts the lines `text` below line `lnum` of
the current buffer (`lnum = 0`: before the first line); returns 0, or 1 when `lnum` is not
valid, in which case nothing changes. -/
def append (v : Vim) (lnum : Int) (text : List String) : Vim × Int :=
  let v := { v with log := v.log ++ [VimCall.append lnum text] }
  match v.bufs v.cur with
  | none => (v, 1)
  | some ls =>
    if lnum < 0 ∨ (ls.length : Int) < lnum then (v, 1)
    else
      let ls' := ls.take lnum.toNat ++ text ++ ls.drop lnum.toNat
      ({ v with bufs := setKey v.bufs v.cur ls' }, 0)

/-- The editor function `cursor(line, col)`. -/
def setCursor (v : Vim) (line col : Int) : Vim :=
  { v with log := v.log ++ [VimCall.cursor line col], cursor := (line, col) }

end Vim

/-! ## The language server: the trace of calls made to it -/

/-- One call made to the language server, with the parameters functions.go fills in. -/
inductive ServerCall
  | DidOpen (uri : String) (version : Int) (text : String)
  | DidChange (uri : String) (version : Int) (text : String)
  | Formatting (uri : String)
  | CodeAction (uri : String)
  | Completion (uri : String) (pos : Position)
  | Definition (uri : String) (pos : Position)
deriving DecidableEq

/-! ## The plugin state -/

/-- The fields of `vimstate` (which embeds `govimplugin` and the driver): `buffers`,
`jumpStack`, `lastCompleteResults`; the driver flag flipped by `ToggleOnViewportChange`;
the editor; and the calls made to the server so far. -/
structure State where
  buffers : Int → Option Buffer
  jumpStack : Int → List jumpPos
  lastCompleteResults : Option CompletionList
  onViewportChange : Bool
  vim : Vim
  server : List ServerCall

/-- The driver method `ToggleOnViewportChange`: flips the flag that says whether
viewport-change events are handled. -/
def State.ToggleOnViewportChange (g : State) : State :=
  { g with onViewportChange := !g.onViewportChange }

/-! ## functions.go: buffer events -/

/-- Go `handleBufferEvent` (lines 99-125). `reply` is the error value the server call
returns. -/
def handleBufferEvent (D : Deps) (g : State) (b : Buffer) (reply : Option Err) :
    State × Option Err :=
  let g := { g with buffers := setKey g.buffers b.Num b }
  if b.Version = 0 then
    ({ g with server := g.server ++ [ServerCall.DidOpen (D.URI b) b.Version b.Contents] },
      reply)
  else
    ({ g with server := g.server ++ [ServerCall.DidChange (D.URI b) b.Version b.Contents] },
      reply)

/-- Go `bufReadPost` (lines 72-84). `fetch` is the result of `fetchCurrentBufferInfo`. -/
def bufReadPost (D : Deps) (g : State) (fetch : Except Err Buffer) (reply : Option Err) :
    State × Option Err :=
  match fetch with
  | .error err => (g, some err)
  | .ok b =>
    match g.buffers b.Num with
    | some cb => handleBufferEvent D g { b with Version := cb.Version + 1 } reply
    | none => handleBufferEvent D g { b with Version := 0 } reply

/-- Go `bufTextChanged` (lines 86-97). -/
def bufTextChanged (D : Deps) (g : State) (fetch : Except Err Buffer) (reply : Option Err) :
    State × Option Err :=
  match fetch with
  | .error err => (g, some err)
  | .ok b =>
    match g.buffers b.Num with
    | none => (g, some (Err.notSeenBuffer b.Num b.Name))
    | some cb => handleBufferEvent D g { b with Version := cb.Version + 1 } reply

/-- A buffer event delivered by the editor, with the buffer `fetchCurrentBufferInfo` returns
for it and the error value of the server call it leads to. -/
inductive BufEvent
  | readPost (b : Buffer) (reply : Option Err)
  | textChanged (b : Buffer) (reply : Option Err)

/-- The buffer number an event is about. -/
def BufEvent.num : BufEvent → Int
  | .readPost b _ => b.Num
  | .textChanged b _ => b.Num

/-- Handling one event. -/
def BufEvent.handle (D : Deps) (g : State) : BufEvent → State × Option Err
  | .readPost b reply => bufReadPost D g (.ok b) reply
  | .textChanged b reply => bufTextChanged D g (.ok b) reply

/-- Handling a sequence of events, one after the other. -/
def handleAll (D : Deps) (g : State) (evs : List BufEvent) : State :=
  evs.foldl (fun g ev => (ev.handle D g).1) g

/-- The version the store records for buffer `n`, if it has one. -/
def State.versionOf (g : State) (n : Int) : Option Int :=
  (g.buffers n).map Buffer.Version

/-! ## functions.go: formatting -/

/-- The loop of `formatCurrentBuffer` (lines 168-205) over the edits in the order it visits
them: the caller passes `edits.reverse`, since `ie` runs from `len(edits)-1` down to 0.
The result of `append` is not looked at by the source. -/
def editLoop (D : Deps) (b : Buffer) : List TextEdit → Vim → Vim × Result Unit
  | [], v => (v, .ok ())
  | e :: rest, v =>
    match D.PointFromPosition b e.Range.Start with
    | .error err => (v, .error (Err.startPoint err))
    | .ok start =>
      match D.PointFromPosition b e.Range.End with
      | .error err => (v, .error (Err.endPoint err))
      | .ok end_ =>
        if start.Col ≠ 1 ∨ end_.Col ≠ 1 then
          (v, .error (Err.colNotOne start.Line start.Col end_.Line end_.Col))
        else if start.Line ≠ end_.Line then
          if e.NewText ≠ "" then (v, .error (Err.multiLineWithText e.NewText))
          else
            let r := v.deletebufline b.Num start.Line (end_.Line - 1)
            if r.2 ≠ 0 then
              (r.1, .error (Err.deletebuflineFailed b.Num start.Line (end_.Line - 1)))
            else editLoop D b rest r.1
        else
          if e.NewText = "" then editLoop D b rest v
          else
            let repl := Split (trimNewline e.NewText)
            editLoop D b rest (v.append (start.Line - 1) repl).1

/-- Lines 163-207 of `formatCurrentBuffer`: read `&eventignore`, `set eventignore=all`,
toggle the viewport handling, run the loop; the two deferred calls run on every way out,
the one deferred last first. -/
def applyEdits (D : Deps) (g : State) (b : Buffer) (edits : List TextEdit) :
    State × Result Unit :=
  let preEventIgnore := g.vim.eventignore
  let g := { g with vim := g.vim.ChannelEx (.setEventignore "all") }
  let g := g.ToggleOnViewportChange
  let r := editLoop D b edits.reverse g.vim
  let g := { g with vim := r.1 }
  let g := g.ToggleOnViewportChange
  let g := { g with vim := g.vim.ChannelEx (.setEventignore preEventIgnore) }
  (g, r.2)

/-- Go `formatCurrentBuffer` (lines 127-207). `formatting` and `codeAction` are what the
server answers to `Formatting` and to `CodeAction`. A buffer missing from the store is the
nil pointer `b`, dereferenced when the request parameters are built. -/
def formatCurrentBuffer (D : Deps) (g : State)
    (formatting : Except String (List TextEdit))
    (codeAction : Except String (List CodeAction)) : State × Result Unit :=
  let tool := g.vim.formatOnSave
  let vp := g.vim.cur
  if tool = D.FormatOnSaveGoFmt then
    match g.buffers vp with
    | none => (g, .panic)
    | some b =>
      let g := { g with server := g.server ++ [ServerCall.Formatting (D.URI b)] }
      match formatting with
      | .error err => (g, .error (Err.formattingFailed err))
      | .ok edits => applyEdits D g b edits
  else if tool = D.FormatOnSaveGoImports then
    match g.buffers vp with
    | none => (g, .panic)
    | some b =>
      let g := { g with server := g.server ++ [ServerCall.CodeAction (D.URI b)] }
      match codeAction with
      | .error err => (g, .error (Err.codeActionFailed err))
      | .ok actions =>
        match actions with
        | [a] =>
          match a.Edit.Changes with
          | none => (g, .panic)
          | some changes => applyEdits D g b (changes (D.URI b))
        | _ => (g, .error (Err.wrongActionCount actions.length))
  else
    (g, .error (Err.unknownFormatTool tool))

/-! ## functions.go: completion -/

/-- What `complete` returns as its `interface{}`: the start column, or the matches. -/
inductive CompleteRet
  | col (c : Int)
  | results (ms : List completionResult)
deriving DecidableEq

/-- The loop of `complete` (lines 236-242) over the items still to visit, `ms` being the
matches appended so far. Reading `i.TextEdit.NewText` of an item whose `TextEdit` is nil is
a nil dereference. -/
def matchesLoop : List CompletionItem → List completionResult → Result (List completionResult)
  | [], ms => .ok ms
  | i :: rest, ms =>
    match i.TextEdit with
    | none => .panic
    | some te => matchesLoop rest (ms ++ [{ Abbr := i.Label, Word := te.NewText, Info := i.Detail }])

/-- Go `complete` (lines 209-246). `findstartArg` is `v.ParseInt(args[0])`; `cursorPos` is
the result of `v.cursorPos()`; `reply` is what the server answers to `Completion` (a nil
list is `none`). With `lastCompleteResults` nil, reading `.Items` is a nil dereference. -/
def complete (D : Deps) (v : State) (findstartArg : Int)
    (cursorPos : Except String (Buffer × Point))
    (reply : Except String (Option CompletionList)) : State × Result CompleteRet :=
  let findstart := findstartArg == 1
  if findstart then
    match cursorPos with
    | .error err => (v, .error (Err.cursorPosFailed err))
    | .ok (b, pos) =>
      let v := { v with server := v.server ++ [ServerCall.Completion (D.URI b) (D.ToPosition pos)] }
      match reply with
      | .error err => (v, .error (Err.completionFailed err))
      | .ok res => ({ v with lastCompleteResults := res }, .ok (.col pos.Col))
  else
    match v.lastCompleteResults with
    | none => (v, .panic)
    | some l =>
      match matchesLoop l.Items [] with
      | .ok results => (v, .ok (.results results))
      | .error err => (v, .error err)
      | .panic => (v, .panic)

/-! ## functions.go: go to definition -/

/-- Lines 290-333 of `gotoDef`, for the single location `loc`. `nb` is read from the store
under the buffer number the editor reports after the open command; a nil `nb` is
dereferenced by the conversion. The deferred `let &switchbuf=` runs on every way out. -/
def jumpTo (D : Deps) (v : State) (loc : Location) : State × Result Unit :=
  let oldSwitchBuf := v.vim.switchbuf
  let vim := v.vim.ChannelEx (.normal "m'")
  let cmd := if vim.modified = 1 then "hide edit" else "edit"
  let vim := vim.ChannelEx (.openFile cmd (trimFilePrefix loc.URI))
  let vp := vim.cur
  match v.buffers vp with
  | none => ({ v with vim := vim.ChannelEx (.letSwitchbuf oldSwitchBuf) }, .panic)
  | some nb =>
    match D.PointFromPosition nb loc.Range.Start with
    | .error err =>
      ({ v with vim := vim.ChannelEx (.letSwitchbuf oldSwitchBuf) }, .error (Err.pointFailed err))
    | .ok newPos =>
      let vim := vim.setCursor newPos.Line newPos.Col
      let vim := vim.ChannelEx (.normal "zz")
      ({ v with vim := vim.ChannelEx (.letSwitchbuf oldSwitchBuf) }, .ok ())

/-- Go `gotoDef` (lines 254-333). `cursorPos` is the result of `v.cursorPos()`; `reply` is
what the server answers to `Definition`. -/
def gotoDef (D : Deps) (v : State) (args : List String)
    (cursorPos : Except String (Buffer × Point))
    (reply : Except String (List Location)) : State × Result Unit :=
  let badMode : Option String :=
    match args with
    | [mode] => if mode ∈ D.GoToDefModes then none else some mode
    | _ => none
  match badMode with
  | some mode => (v, .error (Err.unknownMode mode))
  | none =>
    match cursorPos with
    | .error err => (v, .error (Err.cursorPosFailed err))
    | .ok (cb, pos) =>
      let v := { v with server := v.server ++ [ServerCall.Definition (D.URI cb) (D.ToPosition pos)] }
      match reply with
      | .error err => (v, .error (Err.definitionFailed err))
      | .ok locs =>
        match locs with
        | [] =>
          let msg := ExCmd.other "echorerr \"No definition exists under cursor\""
          ({ v with vim := v.vim.ChannelEx msg }, .ok ())
        | [loc] => jumpTo D v loc
        | _ => (v, .error (Err.multipleLocations locs.length))

/-! ## Statement vocabulary -/

/-- A whole-line operation in editor coordinates of the original buffer: the lines
`first .. last - 1` (one-based) are removed and the lines `text` are put where they were;
with `first = last` nothing is removed and `text` is inserted before line `first`. -/
structure LineOp where
  first : Nat
  last : Nat
  text : List String
deriving DecidableEq

/-- The whole-line operation a supported edit stands for, in the words of the spec: both
points at column 1; a multi-line span with empty text deletes the lines of the span; a
single-line span with non-empty text inserts the text, one trailing newline stripped and
split on newlines, before the anchored line; a single-line span with empty text does
nothing. Any other edit has none. -/
def lineOp (D : Deps) (b : Buffer) (e : TextEdit) : Option LineOp :=
  match D.PointFromPosition b e.Range.Start, D.PointFromPosition b e.Range.End with
  | .ok s, .ok t =>
    if s.Col = 1 ∧ t.Col = 1 ∧ 1 ≤ s.Line ∧ s.Line ≤ t.Line then
      if s.Line < t.Line then
        if e.NewText = "" then some ⟨s.Line.toNat, t.Line.toNat, []⟩ else none
      else if e.NewText = "" then some ⟨s.Line.toNat, s.Line.toNat, []⟩
      else some ⟨s.Line.toNat, s.Line.toNat, Split (trimNewline e.NewText)⟩
    else none
  | _, _ => none

/-- The operations are in ascending document order, do not overlap, and lie between line
`pos` and line `hi` (the line after the last one) of the original buffer. -/
def inOrder : Nat → Nat → List LineOp → Bool
  | pos, hi, [] => decide (pos ≤ hi)
  | pos, hi, op :: ops =>
    decide (pos ≤ op.first) && decide (op.first ≤ op.last) && decide (op.last ≤ hi)
      && inOrder op.last hi ops

/-- The original content with every operation applied at its original coordinates: `rest`
is the original buffer from line `pos` on; the lines before an operation are kept, its text
follows, and the lines it removes are skipped. -/
def applyAtOriginal : Nat → List String → List LineOp → List String
  | _, rest, [] => rest
  | pos, rest, op :: ops =>
    rest.take (op.first - pos) ++ op.text
      ++ applyAtOriginal op.last (rest.drop (op.last - pos)) ops

/-- An unsupported edit in the words of the spec: a start or end point not at column 1 in
editor space, or a multi-line span with non-empty replacement text. -/
def unsupported (D : Deps) (b : Buffer) (e : TextEdit) : Bool :=
  match D.PointFromPosition b e.Range.Start, D.PointFromPosition b e.Range.End with
  | .ok s, .ok t =>
    decide (s.Col ≠ 1) || decide (t.Col ≠ 1)
      || (decide (s.Line ≠ t.Line) && decide (e.NewText ≠ ""))
  | _, _ => false

/-- The call is a line insert or a line delete. -/
def VimCall.changesLines : VimCall → Bool
  | .deletebufline _ _ _ => true
  | .append _ _ => true
  | _ => false

/-- The call opens a file or moves the cursor. -/
def VimCall.opensOrMoves : VimCall → Bool
  | .ex (.openFile _ _) => true
  | .cursor _ _ => true
  | _ => false

/-- A batch of edits as the server computed it: the document version it was computed for,
and the edits. Only the edits reach `formatCurrentBuffer`. -/
structure EditBatch where
  Version : Int
  Edits : List TextEdit

/-- The server hands the batch `edits` to this call of `formatCurrentBuffer`: as the reply
to `Formatting`, or as the changes listed for the buffer in the single code action. -/
def Returned (D : Deps) (g : State) (b : Buffer)
    (formatting : Except String (List TextEdit))
    (codeAction : Except String (List CodeAction)) (edits : List TextEdit) : Prop :=
  (g.vim.formatOnSave = D.FormatOnSaveGoFmt ∧ formatting = .ok edits) ∨
  (g.vim.formatOnSave ≠ D.FormatOnSaveGoFmt ∧ g.vim.formatOnSave = D.FormatOnSaveGoImports ∧
    ∃ changes, codeAction = .ok [⟨⟨some changes⟩⟩] ∧ changes (D.URI b) = edits)

/-- The projection of a completion item the editor is given: label, insertion text and
detail; an item without a text edit has no insertion text and so no projection. -/
def CompletionItem.toResult (i : CompletionItem) : Option completionResult :=
  i.TextEdit.map (fun te => { Abbr := i.Label, Word := te.NewText, Info := i.Detail })

/-! ## Concrete values for the examples -/

/-- Modelled from the spec: packages `types` and `config` are not among the sources. A
protocol position (zero-based line and column) inside the buffer contents becomes the
editor point with line and column one higher, which is the conversion for contents of
one-byte characters; a position outside the contents is an error. The document identity is
the file name behind `file://`. -/
def plainDeps : Deps where
  URI b := "file://" ++ b.Name
  PointFromPosition b pos :=
    match (Split b.Contents)[pos.Line]? with
    | none => .error "line out of range"
    | some l =>
      if pos.Character ≤ l.length then .ok ⟨(pos.Line : Int) + 1, (pos.Character : Int) + 1⟩
      else .error "column out of range"
  ToPosition p := ⟨(p.Line - 1).toNat, (p.Col - 1).toNat⟩
  FormatOnSaveGoFmt := "gofmt"
  FormatOnSaveGoImports := "goimports"
  GoToDefModes := ["tab", "split", "vsplit"]

/-- An editor with no buffer loaded: current buffer 1 in window 1000, gofmt on save. -/
def vim0 : Vim where
  cur := 1
  winid := 1000
  bufs := fun _ => none
  eventignore := ""
  switchbuf := ""
  modified := 0
  formatOnSave := "gofmt"
  cursor := (1, 1)
  fileBuf := fun _ => 1
  log := []

/-- The state of a plugin that has just started. -/
def state0 : State where
  buffers := fun _ => none
  jumpStack := fun _ => []
  lastCompleteResults := none
  onViewportChange := true
  vim := vim0
  server := []

/-- The buffer `a.go` with the contents given, as `fetchCurrentBufferInfo` reports it. -/
def bufA (contents : String) : Buffer :=
  { Num := 1, Name := "a.go", Contents := contents, Version := 0 }

/-- The state after `a.go` (buffer 1, "package a") has been read into the store. -/
def state1 : State :=
  (bufReadPost plainDeps state0 (.ok (bufA "package a\n")) none).1

/-- A definition location in `a.go`: line 0, column 8 of the protocol. -/
def locA : Location :=
  { URI := "file://a.go", Range := { Start := ⟨0, 8⟩, End := ⟨0, 9⟩ } }

/-- A completion item with a text edit: label F, detail func(), insertion text F(). -/
def itemF : CompletionItem :=
  { Label := "F", Detail := "func()",
    TextEdit := some { Range := { Start := ⟨0, 0⟩, End := ⟨0, 0⟩ }, NewText := "F()" } }

/-- A completion item that comes without a text edit. -/
def itemG : CompletionItem :=
  { Label := "G", Detail := "func()", TextEdit := none }

/-- The buffer `a.go` with four lines, held by the store at version 1. -/
def bufL : Buffer :=
  { Num := 1, Name := "a.go", Contents := "l1\nl2\nl3\nl4\n", Version := 1 }

/-- The state in which the store holds `bufL` and the editor shows its four lines. -/
def state2 : State :=
  { state0 with
    buffers := setKey state0.buffers 1 bufL
    vim := { vim0 with bufs := setKey vim0.bufs 1 ["l1", "l2", "l3", "l4"] } }

/-- The edit inserting "x := 1" at line 1 (a single-line span at protocol line 0). -/
def insertTop : TextEdit :=
  { Range := { Start := ⟨0, 0⟩, End := ⟨0, 0⟩ }, NewText := "x := 1\n" }

/-- The edit deleting line 3 (the span from protocol line 2 to protocol line 3). -/
def deleteThird : TextEdit :=
  { Range := { Start := ⟨2, 0⟩, End := ⟨3, 0⟩ }, NewText := "" }

/-- An edit inside line 1, from column 3 to column 3 of the editor. -/
def midLine : TextEdit :=
  { Range := { Start := ⟨0, 2⟩, End := ⟨0, 2⟩ }, NewText := "y" }

/-- A batch the server computed for version 0 of the document. -/
def staleBatch : EditBatch :=
  { Version := 0, Edits := [deleteThird] }

/-- The state `g` with the store holding `b`, at version `ver`, for the current buffer. -/
def State.holding (g : State) (b : Buffer) (ver : Int) : State :=
  { g with buffers := setKey g.buffers g.vim.cur { b with Version := ver } }

/-! ## Theorems: work queue -/

theorem Queue.work_foldl_Add {α : Type} (ts : List α) (q : Queue α) :
    (ts.foldl Queue.Add q).work = q.work ++ ts := by
  induction ts generalizing q with
  | nil => simp
  | cons t ts ih => simp [ih, Queue.Add]

theorem Queue.getN_of_work {α : Type} (ws : List α) (q : Queue α) (h : q.work = ws) :
    (Queue.getN ws.length q).1 = ws.map (fun w => (some w, true)) ∧
      (Queue.getN ws.length q).2.work = [] := by
  induction ws generalizing q with
  | nil => simp [Queue.getN, h]
  | cons w ws ih =>
    have hq : (Queue.Get q) = ((some w, true), { q with work := ws }) := by
      simp [Queue.Get, h]
    have := ih { q with work := ws } rfl
    simp [Queue.getN, hq, this]

/-- C9: after `Set(s)` followed by `Add(t_1) ... Add(t_n)` on any queue, the next `n+1` calls
of `Get` return `s, t_1, ..., t_n` in that order, each with `ok = true` (so nothing held
before the `Set` is returned), and the following `Get` returns `ok = false`. -/
theorem queue_set_add_get_fifo {α : Type} (q : Queue α) (s : α) (ts : List α) :
    (Queue.getN (ts.length + 1) (ts.foldl Queue.Add (q.Set s))).1
        = (s :: ts).map (fun t => (some t, true)) ∧
      (Queue.Get (Queue.getN (ts.length + 1) (ts.foldl Queue.Add (q.Set s))).2).1
        = (none, false) := by
  have hw : (ts.foldl Queue.Add (q.Set s)).work = s :: ts := by
    simp [Queue.work_foldl_Add, Queue.Set]
  have h := Queue.getN_of_work (s :: ts) _ hw
  simp only [List.length_cons] at h
  refine ⟨h.1, ?_⟩
  simp [Queue.Get, h.2]

/-! ## Theorems: buffer events -/

theorem setKey_same {β : Type} (m : Int → Option β) (k : Int) (v : β) :
    setKey m k v k = some v := by
  simp [setKey]

theorem handleBufferEvent_buffers (D : Deps) (g : State) (b : Buffer) (reply : Option Err) :
    (handleBufferEvent D g b reply).1.buffers = setKey g.buffers b.Num b := by
  unfold handleBufferEvent
  split <;> rfl

theorem handle_known (D : Deps) (g : State) (n v : Int) (ev : BufEvent)
    (hev : ev.num = n) (hv : g.versionOf n = some v) :
    (ev.handle D g).1.versionOf n = some (v + 1) := by
  obtain ⟨cb, hcb, hcv⟩ : ∃ cb, g.buffers n = some cb ∧ cb.Version = v := by
    simpa [State.versionOf] using hv
  cases ev with
  | readPost b reply =>
    have hb : b.Num = n := hev
    simp [BufEvent.handle, bufReadPost, hb, hcb, State.versionOf, handleBufferEvent_buffers,
      setKey_same, hcv]
  | textChanged b reply =>
    have hb : b.Num = n := hev
    simp [BufEvent.handle, bufTextChanged, hb, hcb, State.versionOf, handleBufferEvent_buffers,
      setKey_same, hcv]

theorem handleAll_known (D : Deps) (n : Int) (evs : List BufEvent) :
    ∀ (g : State) (v : Int), g.versionOf n = some v → (∀ ev ∈ evs, ev.num = n) →
      (handleAll D g evs).versionOf n = some (v + evs.length) := by
  induction evs with
  | nil => intro g v hv _; simpa [handleAll] using hv
  | cons ev evs ih =>
    intro g v hv hall
    have h1 := handle_known D g n v ev (hall ev (by simp)) hv
    have h2 := ih (ev.handle D g).1 (v + 1) h1 (fun e he => hall e (by simp [he]))
    simp only [handleAll, List.foldl_cons] at h2 ⊢
    rw [h2]
    simp only [List.length_cons, Nat.cast_add, Nat.cast_one]
    congr 1
    omega

theorem readPost_fresh (D : Deps) (g : State) (b : Buffer) (reply : Option Err)
    (hnew : g.buffers b.Num = none) :
    (bufReadPost D g (.ok b) reply).1.versionOf b.Num = some 0 := by
  simp [bufReadPost, hnew, State.versionOf, handleBufferEvent_buffers, setKey_same]

theorem versions_closed_form (D : Deps) (g : State) (n : Int) (b : Buffer)
    (reply : Option Err) (rest : List BufEvent)
    (hnew : g.buffers n = none) (hb : b.Num = n) (hrest : ∀ ev ∈ rest, ev.num = n)
    (k : Nat) (hk : k < (BufEvent.readPost b reply :: rest).length) :
    (handleAll D g ((BufEvent.readPost b reply :: rest).take (k + 1))).versionOf n
      = some (k : Int) := by
  subst hb
  have h0 := readPost_fresh D g b reply hnew
  have h := handleAll_known D b.Num (rest.take k) (bufReadPost D g (.ok b) reply).1 0 h0
    (fun e he => hrest e (List.mem_of_mem_take he))
  simp only [List.length_cons] at hk
  have hlen : (rest.take k).length = k := by
    rw [List.length_take]; omega
  have hstep : handleAll D g ((BufEvent.readPost b reply :: rest).take (k + 1))
      = handleAll D (bufReadPost D g (.ok b) reply).1 (rest.take k) := rfl
  rw [hstep, h, hlen]
  simp

/-- C1 (amended): for every sequence of buffer events on one buffer number that begins with
a bufReadPost, starting from a store that has never seen that buffer, the version recorded
in the store is 0 after the first event, after each later event it is exactly the previously
recorded version plus 1, and so it is k after the (k+1)-th event; a bufTextChanged on that
store is refused with the not-seen error and leaves the state as it was. -/
theorem bufferEvents_versions (D : Deps) (g : State) (n : Int) (b : Buffer)
    (reply : Option Err) (rest : List BufEvent)
    (hnew : g.buffers n = none) (hb : b.Num = n) (hrest : ∀ ev ∈ rest, ev.num = n) :
    (handleAll D g ((BufEvent.readPost b reply :: rest).take 1)).versionOf n = some 0 ∧
    (∀ k, 1 ≤ k → k < (BufEvent.readPost b reply :: rest).length →
      (handleAll D g ((BufEvent.readPost b reply :: rest).take (k + 1))).versionOf n
        = ((handleAll D g ((BufEvent.readPost b reply :: rest).take k)).versionOf n).map
            (fun p => p + 1)) ∧
    (∀ k, k < (BufEvent.readPost b reply :: rest).length →
      (handleAll D g ((BufEvent.readPost b reply :: rest).take (k + 1))).versionOf n
        = some (k : Int)) ∧
    (∀ (c : Buffer) (r : Option Err), c.Num = n →
      bufTextChanged D g (.ok c) r = (g, some (Err.notSeenBuffer c.Num c.Name))) := by
  have hc := versions_closed_form D g n b reply rest hnew hb hrest
  refine ⟨?_, ?_, hc, ?_⟩
  · simpa using hc 0 (by simp)
  · intro k hk1 hk
    obtain ⟨j, rfl⟩ : ∃ j, k = j + 1 := ⟨k - 1, by omega⟩
    rw [hc (j + 1) hk, hc j (by omega)]
    simp
  · intro c r hcn
    simp [bufTextChanged, hcn, hnew]

/-- C1 (witness): a bufReadPost of `a.go`, a change, and a reload on the fresh store. -/
theorem bufferEvents_versions_witness :
    (handleAll plainDeps state0 ((BufEvent.readPost (bufA "package a\n") none ::
        [BufEvent.textChanged (bufA "package b\n") none,
          BufEvent.readPost (bufA "package a\n") none]).take 1)).versionOf 1 = some 0 ∧
    (∀ k, 1 ≤ k → k < (BufEvent.readPost (bufA "package a\n") none ::
        [BufEvent.textChanged (bufA "package b\n") none,
          BufEvent.readPost (bufA "package a\n") none]).length →
      (handleAll plainDeps state0 ((BufEvent.readPost (bufA "package a\n") none ::
        [BufEvent.textChanged (bufA "package b\n") none,
          BufEvent.readPost (bufA "package a\n") none]).take (k + 1))).versionOf 1
        = ((handleAll plainDeps state0 ((BufEvent.readPost (bufA "package a\n") none ::
        [BufEvent.textChanged (bufA "package b\n") none,
          BufEvent.readPost (bufA "package a\n") none]).take k)).versionOf 1).map
            (fun p => p + 1)) ∧
    (∀ k, k < (BufEvent.readPost (bufA "package a\n") none ::
        [BufEvent.textChanged (bufA "package b\n") none,
          BufEvent.readPost (bufA "package a\n") none]).length →
      (handleAll plainDeps state0 ((BufEvent.readPost (bufA "package a\n") none ::
        [BufEvent.textChanged (bufA "package b\n") none,
          BufEvent.readPost (bufA "package a\n") none]).take (k + 1))).versionOf 1
        = some (k : Int)) ∧
    (∀ (c : Buffer) (r : Option Err), c.Num = 1 →
      bufTextChanged plainDeps state0 (.ok c) r
        = (state0, some (Err.notSeenBuffer c.Num c.Name))) :=
  bufferEvents_versions plainDeps state0 1 (bufA "package a\n") none
    [BufEvent.textChanged (bufA "package b\n") none,
      BufEvent.readPost (bufA "package a\n") none]
    rfl rfl (by decide)

/-- C1 (counterexample): on the fresh store a sequence whose first event is a bufTextChanged
records no version at all after that event, and the call returns the not-seen error. -/
theorem textChanged_first_records_nothing :
    state0.buffers 1 = none ∧
    (handleAll plainDeps state0
        [BufEvent.textChanged (bufA "package a\n") none]).versionOf 1 = none ∧
    (handleAll plainDeps state0
        [BufEvent.textChanged (bufA "package a\n") none]).versionOf 1 ≠ some 0 ∧
    (bufTextChanged plainDeps state0 (.ok (bufA "package a\n")) none).2
      = some (Err.notSeenBuffer 1 "a.go") := by
  refine ⟨rfl, rfl, ?_, rfl⟩
  intro h
  cases h

/-- C2: for every buffer snapshot passed to handleBufferEvent exactly one notification is
sent to the server: DidOpen when the version is 0 and DidChange otherwise, carrying the
full contents and the version the store holds for that buffer after the call; and `a.go`
observed fresh with "package a" gives DidOpen with version 0, then changed gives DidChange
with version 1 and the full new text. -/
theorem handleBufferEvent_notifies :
    (∀ (D : Deps) (g : State) (b : Buffer) (reply : Option Err),
      (handleBufferEvent D g b reply).1.server = g.server ++
        [if b.Version = 0 then ServerCall.DidOpen (D.URI b) b.Version b.Contents
          else ServerCall.DidChange (D.URI b) b.Version b.Contents] ∧
      (handleBufferEvent D g b reply).1.buffers b.Num = some b ∧
      (handleBufferEvent D g b reply).1.versionOf b.Num = some b.Version) ∧
    (bufReadPost plainDeps state0 (.ok (bufA "package a\n")) none).1.server
      = [ServerCall.DidOpen "file://a.go" 0 "package a\n"] ∧
    (bufTextChanged plainDeps (bufReadPost plainDeps state0 (.ok (bufA "package a\n")) none).1
        (.ok (bufA "package a\n\nfunc F() \x7b\x7d\n")) none).1.server
      = [ServerCall.DidOpen "file://a.go" 0 "package a\n",
          ServerCall.DidChange "file://a.go" 1 "package a\n\nfunc F() \x7b\x7d\n"] := by
  refine ⟨?_, ?_, ?_⟩
  · intro D g b reply
    refine ⟨?_, ?_, ?_⟩
    · unfold handleBufferEvent
      split <;> simp [*]
    · rw [handleBufferEvent_buffers, setKey_same]
    · simp [State.versionOf, handleBufferEvent_buffers, setKey_same]
  · decide
  · decide

/-! ## Theorems: completion -/

theorem matchesLoop_of_textEdits (items : List CompletionItem) :
    ∀ (rs acc : List completionResult), items.map CompletionItem.toResult = rs.map some →
      matchesLoop items acc = .ok (acc ++ rs) := by
  induction items with
  | nil =>
    intro rs acc h
    cases rs with
    | nil => simp [matchesLoop]
    | cons r rs => simp at h
  | cons i items ih =>
    intro rs acc h
    cases rs with
    | nil => simp at h
    | cons r rs =>
      simp only [List.map_cons, List.cons.injEq] at h
      obtain ⟨hi, hrest⟩ := h
      cases hte : i.TextEdit with
      | none => simp [CompletionItem.toResult, hte] at hi
      | some te =>
        simp only [CompletionItem.toResult, hte, Option.map_some', Option.some.injEq] at hi
        rw [matchesLoop]
        simp only [hte]
        rw [ih rs _ hrest, hi]
        simp

theorem matchesLoop_missing (items : List CompletionItem) :
    ∀ (acc : List completionResult), (∃ i ∈ items, i.TextEdit = none) →
      matchesLoop items acc = .panic := by
  induction items with
  | nil => intro acc h; simp at h
  | cons i items ih =>
    intro acc h
    rw [matchesLoop]
    cases hte : i.TextEdit with
    | none => rfl
    | some te =>
      simp only
      apply ih
      obtain ⟨j, hmem, hj⟩ := h
      rcases List.mem_cons.mp hmem with rfl | hmem
      · rw [hte] at hj; cases hj
      · exact ⟨j, hmem, hj⟩

theorem complete_matches_with_textEdits (D : Deps) (v : State) (l : CompletionList)
    (rs : List completionResult)
    (cp : Except String (Buffer × Point)) (reply : Except String (Option CompletionList))
    (h : v.lastCompleteResults = some l)
    (hall : l.Items.map CompletionItem.toResult = rs.map some) :
    complete D v 0 cp reply = (v, .ok (.results rs)) := by
  have hm := matchesLoop_of_textEdits l.Items rs [] hall
  simp [complete, h, hm]

theorem complete_matches_with_textEdits_example
    (cp : Except String (Buffer × Point)) (reply : Except String (Option CompletionList)) :
    complete plainDeps { state0 with lastCompleteResults := some ⟨[itemF, itemF]⟩ } 0 cp reply
      = ({ state0 with lastCompleteResults := some ⟨[itemF, itemF]⟩ },
          .ok (.results [⟨"F", "F()", "func()"⟩, ⟨"F", "F()", "func()"⟩])) :=
  complete_matches_with_textEdits plainDeps _ ⟨[itemF, itemF]⟩ _ cp reply rfl (by decide)

/-- C6 (the code at the failing input): with no completion session stored, a Matches call
(findstart = 0) ends in a nil dereference, whatever the state, the cursor and the server. -/
theorem complete_matches_without_session_panics (D : Deps) (v : State)
    (cp : Except String (Buffer × Point)) (reply : Except String (Option CompletionList)) :
    (complete D { v with lastCompleteResults := none } 0 cp reply).2 = Result.panic ∧
    (complete plainDeps state0 0 cp reply).2 = Result.panic := by
  constructor <;> simp [complete, state0]

/-- C7 (the code at the failing input): a successful FindStart stores whatever list the
server returns; when an item of the stored session comes without a text edit, the Matches
call right after it ends in a nil dereference instead of returning one result per item,
whatever the other items are; so it does for the session [itemF, itemG] on the fresh state. -/
theorem complete_matches_item_without_textEdit_panics (D : Deps) (v : State) (b : Buffer)
    (pos : Point) (before after : List CompletionItem) (i : CompletionItem)
    (cp : Except String (Buffer × Point)) (reply : Except String (Option CompletionList)) :
    (complete D v 1 (.ok (b, pos))
        (.ok (some ⟨before ++ { i with TextEdit := none } :: after⟩))).2 = .ok (.col pos.Col) ∧
    (complete D v 1 (.ok (b, pos))
        (.ok (some ⟨before ++ { i with TextEdit := none } :: after⟩))).1.lastCompleteResults
      = some ⟨before ++ { i with TextEdit := none } :: after⟩ ∧
    (complete D (complete D v 1 (.ok (b, pos))
        (.ok (some ⟨before ++ { i with TextEdit := none } :: after⟩))).1 0 cp reply).2
      = Result.panic ∧
    (complete plainDeps (complete plainDeps state0 1 (.ok (b, pos))
        (.ok (some ⟨[itemF, itemG]⟩))).1 0 cp reply).2 = Result.panic := by
  have hm : ∀ items : List CompletionItem, (∃ j ∈ items, j.TextEdit = none) →
      ∀ (w : State), w.lastCompleteResults = some ⟨items⟩ →
        (complete D w 0 cp reply).2 = Result.panic := by
    intro items hex w hw
    simp [complete, hw, matchesLoop_missing items [] hex]
  refine ⟨by simp [complete], by simp [complete], ?_, ?_⟩
  · apply hm (before ++ { i with TextEdit := none } :: after)
    · exact ⟨{ i with TextEdit := none }, by simp, rfl⟩
    · simp [complete]
  · simp [complete, matchesLoop, itemF, itemG]

/-! ## Theorems: restoring the editor state after formatting -/

theorem applyEdits_restores (D : Deps) (g : State) (b : Buffer) (edits : List TextEdit) :
    (applyEdits D g b edits).1.vim.eventignore = g.vim.eventignore ∧
    (applyEdits D g b edits).1.onViewportChange = g.onViewportChange ∧
    (applyEdits D g b edits).1.vim.log.getLast?
      = some (VimCall.ex (.setEventignore g.vim.eventignore)) := by
  simp [applyEdits, State.ToggleOnViewportChange, Vim.ChannelEx]

/-- C8: the part of formatCurrentBuffer that starts the suppression (applyEdits) ends, on
every way out of the edit loop (success, an error, whatever the edits), with eventignore set
back to the value read before and the viewport handling toggled back, the restoring
`set eventignore=` being the last command sent; and for every call of formatCurrentBuffer
both have, after the call, the values they had before it. -/
theorem formatCurrentBuffer_restores :
    (∀ (D : Deps) (g : State) (b : Buffer) (edits : List TextEdit),
      (applyEdits D g b edits).1.vim.eventignore = g.vim.eventignore ∧
      (applyEdits D g b edits).1.onViewportChange = g.onViewportChange ∧
      (applyEdits D g b edits).1.vim.log.getLast?
        = some (VimCall.ex (.setEventignore g.vim.eventignore))) ∧
    (∀ (D : Deps) (g : State) (formatting : Except String (List TextEdit))
        (codeAction : Except String (List CodeAction)),
      (formatCurrentBuffer D g formatting codeAction).1.vim.eventignore = g.vim.eventignore ∧
      (formatCurrentBuffer D g formatting codeAction).1.onViewportChange
        = g.onViewportChange) := by
  refine ⟨applyEdits_restores, ?_⟩
  intro D g formatting codeAction
  unfold formatCurrentBuffer
  dsimp only
  split
  · split
    · exact ⟨rfl, rfl⟩
    · split
      · exact ⟨rfl, rfl⟩
      · exact ⟨(applyEdits_restores D _ _ _).1, (applyEdits_restores D _ _ _).2.1⟩
  · split
    · split
      · exact ⟨rfl, rfl⟩
      · split
        · exact ⟨rfl, rfl⟩
        · split
          · split
            · exact ⟨rfl, rfl⟩
            · exact ⟨(applyEdits_restores D _ _ _).1, (applyEdits_restores D _ _ _).2.1⟩
          · exact ⟨rfl, rfl⟩
    · exact ⟨rfl, rfl⟩

/-! ## Theorems: go to definition -/

theorem jumpTo_jumpStack (D : Deps) (v : State) (loc : Location) :
    (jumpTo D v loc).1.jumpStack = v.jumpStack := by
  unfold jumpTo
  dsimp only
  split
  · rfl
  · split <;> rfl

theorem jumpTo_log (D : Deps) (v : State) (loc : Location) :
    ∃ more, (jumpTo D v loc).1.vim.log = v.vim.log ++
      [VimCall.ex (.normal "m'"),
        VimCall.ex (.openFile (if v.vim.modified = 1 then "hide edit" else "edit")
          (trimFilePrefix loc.URI))] ++ more := by
  unfold jumpTo
  dsimp only
  split
  · exact ⟨[VimCall.ex (.letSwitchbuf v.vim.switchbuf)], by simp [Vim.ChannelEx]⟩
  · split
    · exact ⟨[VimCall.ex (.letSwitchbuf v.vim.switchbuf)], by simp [Vim.ChannelEx]⟩
    · rename_i newPos _
      exact ⟨[VimCall.cursor newPos.Line newPos.Col, VimCall.ex (.normal "zz"),
        VimCall.ex (.letSwitchbuf v.vim.switchbuf)], by simp [Vim.ChannelEx, Vim.setCursor]⟩

/-- C10 (amended): for every Definition response received by gotoDef: with zero locations it
returns no error and sends the editor only the message command; with two or more it returns
the multiple-locations error and sends the editor nothing; with exactly one it sends
`normal! m'` and the file-open command and, when the target position converts against the
buffer the store holds for the editor's current buffer after the open, moves the cursor to
the converted point, recentres and returns no error. In all three cases the jumpStack
field is left unchanged. -/
theorem gotoDef_by_cardinality (D : Deps) (v : State) (args : List String) (cb : Buffer)
    (pos : Point) (locs : List Location)
    (hmode : ∀ m, args = [m] → m ∈ D.GoToDefModes) :
    (gotoDef D v args (.ok (cb, pos)) (.ok locs)).1.jumpStack = v.jumpStack ∧
    (locs = [] →
      (gotoDef D v args (.ok (cb, pos)) (.ok locs)).2 = .ok () ∧
      (gotoDef D v args (.ok (cb, pos)) (.ok locs)).1.vim.log = v.vim.log ++
        [VimCall.ex (.other "echorerr \"No definition exists under cursor\"")] ∧
      (((gotoDef D v args (.ok (cb, pos)) (.ok locs)).1.vim.log.drop v.vim.log.length).all
        (fun c => !c.opensOrMoves)) = true) ∧
    (2 ≤ locs.length →
      (gotoDef D v args (.ok (cb, pos)) (.ok locs)).2
        = .error (Err.multipleLocations locs.length) ∧
      (gotoDef D v args (.ok (cb, pos)) (.ok locs)).1.vim.log = v.vim.log ∧
      (((gotoDef D v args (.ok (cb, pos)) (.ok locs)).1.vim.log.drop v.vim.log.length).all
        (fun c => !c.opensOrMoves)) = true) ∧
    (∀ loc, locs = [loc] →
      ∃ more, (gotoDef D v args (.ok (cb, pos)) (.ok locs)).1.vim.log = v.vim.log ++
        [VimCall.ex (.normal "m'"),
          VimCall.ex (.openFile (if v.vim.modified = 1 then "hide edit" else "edit")
            (trimFilePrefix loc.URI))] ++ more) ∧
    (∀ loc nb newPos, locs = [loc] →
      v.buffers (v.vim.fileBuf (trimFilePrefix loc.URI)) = some nb →
      D.PointFromPosition nb loc.Range.Start = .ok newPos →
      (gotoDef D v args (.ok (cb, pos)) (.ok locs)).2 = .ok () ∧
      (gotoDef D v args (.ok (cb, pos)) (.ok locs)).1.vim.cursor = (newPos.Line, newPos.Col) ∧
      (gotoDef D v args (.ok (cb, pos)) (.ok locs)).1.vim.log = v.vim.log ++
        [VimCall.ex (.normal "m'"),
          VimCall.ex (.openFile (if v.vim.modified = 1 then "hide edit" else "edit")
            (trimFilePrefix loc.URI)),
          VimCall.cursor newPos.Line newPos.Col,
          VimCall.ex (.normal "zz"),
          VimCall.ex (.letSwitchbuf v.vim.switchbuf)]) := by
  have hbad : (match args with
      | [mode] => if mode ∈ D.GoToDefModes then none else some mode
      | _ => (none : Option String)) = none := by
    cases args with
    | nil => rfl
    | cons m ms =>
      cases ms with
      | nil => simp [hmode m rfl]
      | cons m2 ms => rfl
  have hgo : gotoDef D v args (.ok (cb, pos)) (.ok locs) =
      match locs with
      | [] =>
        ({ v with
            server := v.server ++ [ServerCall.Definition (D.URI cb) (D.ToPosition pos)],
            vim := v.vim.ChannelEx
              (ExCmd.other "echorerr \"No definition exists under cursor\"") }, .ok ())
      | [loc] => jumpTo D { v with
            server := v.server ++ [ServerCall.Definition (D.URI cb) (D.ToPosition pos)] } loc
      | _ => ({ v with
            server := v.server ++ [ServerCall.Definition (D.URI cb) (D.ToPosition pos)] },
          .error (Err.multipleLocations locs.length)) := by
    unfold gotoDef
    simp only [hbad]
  rw [hgo]
  refine ⟨?_, ?_, ?_, ?_, ?_⟩
  · cases locs with
    | nil => rfl
    | cons l ls =>
      cases ls with
      | nil => exact jumpTo_jumpStack D _ l
      | cons l2 ls => rfl
  · rintro rfl
    refine ⟨rfl, rfl, ?_⟩
    simp [Vim.ChannelEx, VimCall.opensOrMoves]
  · intro h2
    match locs, h2 with
    | _ :: _ :: _, _ =>
      refine ⟨rfl, rfl, ?_⟩
      simp
  · rintro loc rfl
    exact jumpTo_log D _ loc
  · rintro loc nb newPos rfl hnb hpos
    have hnb2 : v.buffers ((v.vim.ChannelEx (.normal "m'")).ChannelEx
        (.openFile (if (v.vim.ChannelEx (.normal "m'")).modified = 1 then "hide edit"
          else "edit") (trimFilePrefix loc.URI))).cur = some nb := hnb
    simp only [jumpTo, hnb2, hpos]
    simp [Vim.ChannelEx, Vim.setCursor]

/-- C10 (witness): from the state holding `a.go`, a single location in `a.go` at protocol
position (0, 8) moves the cursor to the editor point (1, 9). -/
theorem gotoDef_by_cardinality_witness :
    (∀ m, ([] : List String) = [m] → m ∈ plainDeps.GoToDefModes) ∧
    (gotoDef plainDeps state1 [] (.ok (bufA "package a\n", ⟨1, 1⟩)) (.ok [locA])).2 = .ok () ∧
    (gotoDef plainDeps state1 [] (.ok (bufA "package a\n", ⟨1, 1⟩)) (.ok [locA])).1.vim.cursor
      = (1, 9) ∧
    (gotoDef plainDeps state1 [] (.ok (bufA "package a\n", ⟨1, 1⟩)) (.ok [locA])).1.jumpStack
      = state1.jumpStack :=
  have h := gotoDef_by_cardinality plainDeps state1 [] (bufA "package a\n") ⟨1, 1⟩ [locA]
    (by simp)
  have h4 := h.2.2.2.2 locA { bufA "package a\n" with Version := 0 } ⟨1, 9⟩ rfl
    rfl rfl
  ⟨by simp, h4.1, h4.2.1, h.1⟩

/-- C10 (counterexample): with exactly one location the call succeeds and moves the cursor,
yet the jump stack of the originating window has as many entries after the call as before. -/
theorem gotoDef_one_location_no_push :
    (gotoDef plainDeps state1 [] (.ok (bufA "package a\n", ⟨1, 1⟩)) (.ok [locA])).2 = .ok () ∧
    (gotoDef plainDeps state1 [] (.ok (bufA "package a\n", ⟨1, 1⟩)) (.ok [locA])).1.vim.cursor
      = (1, 9) ∧
    ((gotoDef plainDeps state1 [] (.ok (bufA "package a\n", ⟨1, 1⟩))
        (.ok [locA])).1.jumpStack state1.vim.winid).length
      = (state1.jumpStack state1.vim.winid).length ∧
    ((gotoDef plainDeps state1 [] (.ok (bufA "package a\n", ⟨1, 1⟩))
        (.ok [locA])).1.jumpStack state1.vim.winid).length
      ≠ (state1.jumpStack state1.vim.winid).length + 1 := by
  decide

/-! ## Theorems: applying edits last first -/

theorem inOrder_le (xs : List LineOp) : ∀ pos hi, inOrder pos hi xs = true → pos ≤ hi := by
  induction xs with
  | nil => intro pos hi h; simpa [inOrder] using h
  | cons x xs ih =>
    intro pos hi h
    simp only [inOrder, Bool.and_eq_true, decide_eq_true_eq] at h
    omega

theorem inOrder_mono (xs : List LineOp) :
    ∀ pos hi hi', hi ≤ hi' → inOrder pos hi xs = true → inOrder pos hi' xs = true := by
  induction xs with
  | nil => intro pos hi hi' hle h; simp only [inOrder, decide_eq_true_eq] at h ⊢; omega
  | cons x xs ih =>
    intro pos hi hi' hle h
    simp only [inOrder, Bool.and_eq_true, decide_eq_true_eq] at h ⊢
    exact ⟨⟨⟨h.1.1.1, h.1.1.2⟩, by omega⟩, ih _ _ _ hle h.2⟩

theorem inOrder_snoc (xs : List LineOp) (op : LineOp) :
    ∀ pos hi, inOrder pos hi (xs ++ [op]) = true →
      inOrder pos op.first xs = true ∧ op.first ≤ op.last ∧ op.last ≤ hi := by
  induction xs with
  | nil =>
    intro pos hi h
    simp only [List.nil_append, inOrder, Bool.and_eq_true, decide_eq_true_eq] at h ⊢
    omega
  | cons x xs ih =>
    intro pos hi h
    simp only [List.cons_append, inOrder, Bool.and_eq_true, decide_eq_true_eq] at h ⊢
    have := ih _ _ h.2
    have hle := inOrder_le _ _ _ this.1
    exact ⟨⟨⟨⟨h.1.1.1, h.1.1.2⟩, hle⟩, this.1⟩, this.2⟩

theorem applyAtOriginal_snoc (xs : List LineOp) (op : LineOp) :
    ∀ (pos : Nat) (rest : List String), inOrder pos op.first xs = true →
      op.first ≤ op.last → op.last ≤ pos + rest.length →
      applyAtOriginal pos rest (xs ++ [op])
        = applyAtOriginal pos
            (rest.take (op.first - pos) ++ op.text ++ rest.drop (op.last - pos)) xs := by
  induction xs with
  | nil => intro pos rest _ _ _; simp [applyAtOriginal]
  | cons x xs ih =>
    intro pos rest h h1 h2
    simp only [inOrder, Bool.and_eq_true, decide_eq_true_eq] at h
    obtain ⟨⟨⟨hx1, hx2⟩, hx3⟩, hxs⟩ := h
    have hih := ih x.last (rest.drop (x.last - pos)) hxs h1 (by simp; omega)
    rw [List.cons_append, applyAtOriginal, applyAtOriginal, hih]
    have hlen : (rest.take (op.first - pos)).length = op.first - pos := by
      rw [List.length_take]; omega
    have ht : ((rest.take (op.first - pos) ++ op.text ++ rest.drop (op.last - pos)).take
        (x.first - pos)) = rest.take (x.first - pos) := by
      have hle : x.first - pos ≤ (rest.take (op.first - pos)).length := by
        rw [hlen]; omega
      rw [List.append_assoc, List.take_append_of_le_length hle, List.take_take]
      have e0 : min (x.first - pos) (op.first - pos) = x.first - pos := by omega
      rw [e0]
    have hd : ((rest.take (op.first - pos) ++ op.text ++ rest.drop (op.last - pos)).drop
        (x.last - pos)) = (rest.drop (x.last - pos)).take (op.first - x.last) ++ op.text ++
          (rest.drop (x.last - pos)).drop (op.last - x.last) := by
      have hle : x.last - pos ≤ (rest.take (op.first - pos)).length := by
        rw [hlen]; omega
      rw [List.append_assoc, List.drop_append_of_le_length hle, List.drop_take,
        List.drop_drop, List.append_assoc]
      have e1 : op.first - pos - (x.last - pos) = op.first - x.last := by omega
      have e2 : x.last - pos + (op.last - x.last) = op.last - pos := by omega
      rw [e1, e2]
    rw [ht, hd]

theorem deletebufline_ok (v : Vim) (num first last : Int) (lines : List String)
    (hbuf : v.bufs num = some lines) (h1 : 1 ≤ first) (h2 : first ≤ last)
    (h3 : last ≤ lines.length) :
    (v.deletebufline num first last).2 = 0 ∧
    (v.deletebufline num first last).1.cur = v.cur ∧
    (v.deletebufline num first last).1.bufs num
      = some (lines.take (first.toNat - 1) ++ lines.drop last.toNat) := by
  have hc : ¬ (first < 1 ∨ (lines.length : Int) < first ∨ last < first) := by omega
  have e1 : (first - 1).toNat = first.toNat - 1 := by omega
  have e2 : (min last (lines.length : Int)).toNat = last.toNat := by
    rw [min_eq_left h3]
  simp [Vim.deletebufline, hbuf, hc, setKey, e1, e2]

theorem append_ok (v : Vim) (lnum : Int) (text lines : List String)
    (hbuf : v.bufs v.cur = some lines) (h1 : 0 ≤ lnum) (h2 : lnum ≤ lines.length) :
    (v.append lnum text).1.cur = v.cur ∧
    (v.append lnum text).1.bufs v.cur
      = some (lines.take lnum.toNat ++ text ++ lines.drop lnum.toNat) := by
  have hc : ¬ (lnum < 0 ∨ (lines.length : Int) < lnum) := by omega
  simp [Vim.append, hbuf, hc, setKey]

theorem editLoop_step (D : Deps) (b : Buffer) (e : TextEdit) (rest : List TextEdit)
    (op : LineOp) (v : Vim) (lines : List String)
    (hop : lineOp D b e = some op) (hcur : v.cur = b.Num)
    (hbuf : v.bufs b.Num = some lines) (hhi : op.last ≤ lines.length + 1) :
    1 ≤ op.first ∧ op.first ≤ op.last ∧
    ∃ v', editLoop D b (e :: rest) v = editLoop D b rest v' ∧ v'.cur = b.Num ∧
      v'.bufs b.Num
        = some (lines.take (op.first - 1) ++ op.text ++ lines.drop (op.last - 1)) := by
  unfold lineOp at hop
  cases hs : D.PointFromPosition b e.Range.Start with
  | error err => simp [hs] at hop
  | ok s =>
    cases ht : D.PointFromPosition b e.Range.End with
    | error err => simp [hs, ht] at hop
    | ok t =>
      simp only [hs, ht] at hop
      split at hop
      · rename_i hc
        obtain ⟨hc1, hc2, hc3, hc4⟩ := hc
        have hcol : ¬ (s.Col ≠ 1 ∨ t.Col ≠ 1) := by simp [hc1, hc2]
        split at hop
        · rename_i hlt
          split at hop
          · rename_i hnt
            simp only [Option.some.injEq] at hop
            subst hop
            simp only at hhi
            have hd := deletebufline_ok v b.Num s.Line (t.Line - 1) lines hbuf hc3
              (by omega) (by omega)
            refine ⟨by simp; omega, by simp; omega, (v.deletebufline b.Num s.Line (t.Line - 1)).1,
              ?_, hd.2.1.trans hcur, ?_⟩
            · rw [editLoop]
              simp [hs, ht, hc1, hc2, hnt, ne_of_lt hlt, hd.1]
            · rw [hd.2.2]
              have e1 : (t.Line - 1).toNat = t.Line.toNat - 1 := by omega
              simp [e1]
          · simp at hop
        · rename_i hlt
          have heq : s.Line = t.Line := by omega
          split at hop
          · rename_i hnt
            simp only [Option.some.injEq] at hop
            subst hop
            refine ⟨by simp; omega, by simp, v, ?_, hcur, ?_⟩
            · rw [editLoop]
              simp [hs, ht, hc1, hc2, hnt, heq]
            · simp [hbuf]
          · rename_i hnt
            simp only [Option.some.injEq] at hop
            subst hop
            simp only at hhi
            have hbuf2 : v.bufs v.cur = some lines := by rw [hcur]; exact hbuf
            have ha := append_ok v (s.Line - 1) (Split (trimNewline e.NewText)) lines hbuf2
              (by omega) (by omega)
            refine ⟨by simp; omega, by simp,
              (v.append (s.Line - 1) (Split (trimNewline e.NewText))).1, ?_,
              ha.1.trans hcur, ?_⟩
            · rw [editLoop]
              simp [hs, ht, hc1, hc2, hnt, heq]
            · rw [← hcur, ha.2]
              have e1 : (s.Line - 1).toNat = s.Line.toNat - 1 := by omega
              simp [e1]
      · simp at hop

theorem editLoop_applies (D : Deps) (b : Buffer) (es : List TextEdit) :
    ∀ (ops : List LineOp) (v : Vim) (lines : List String),
      es.map (lineOp D b) = ops.map some → v.cur = b.Num → v.bufs b.Num = some lines →
      inOrder 1 (lines.length + 1) ops.reverse = true →
      (editLoop D b es v).2 = .ok () ∧
      (editLoop D b es v).1.bufs b.Num = some (applyAtOriginal 1 lines ops.reverse) := by
  induction es with
  | nil =>
    intro ops v lines hmap _ hbuf _
    cases ops with
    | nil => exact ⟨rfl, by simpa [editLoop, applyAtOriginal] using hbuf⟩
    | cons op ops => simp at hmap
  | cons e es ih =>
    intro ops v lines hmap hcur hbuf hord
    cases ops with
    | nil => simp at hmap
    | cons op ops =>
      simp only [List.map_cons, List.cons.injEq] at hmap
      rw [List.reverse_cons] at hord ⊢
      obtain ⟨ho1, ho2, ho3⟩ := inOrder_snoc _ _ _ _ hord
      obtain ⟨hf, _, v', hstep, hcur', hbuf'⟩ :=
        editLoop_step D b e es op v lines hmap.1 hcur hbuf ho3
      have hlen : op.first ≤
          (lines.take (op.first - 1) ++ op.text ++ lines.drop (op.last - 1)).length + 1 := by
        simp only [List.length_append, List.length_take]
        omega
      have hih := ih ops v' _ hmap.2 hcur' hbuf' (inOrder_mono _ _ _ _ hlen ho1)
      rw [hstep, applyAtOriginal_snoc _ _ _ _ ho1 ho2 (by omega)]
      exact hih

theorem formatCurrentBuffer_of_returned (D : Deps) (g : State) (b : Buffer)
    (formatting : Except String (List TextEdit))
    (codeAction : Except String (List CodeAction)) (edits : List TextEdit)
    (hb : g.buffers g.vim.cur = some b)
    (hret : Returned D g b formatting codeAction edits) :
    ∃ call, formatCurrentBuffer D g formatting codeAction
      = applyEdits D { g with server := g.server ++ [call] } b edits := by
  rcases hret with ⟨ht, hf⟩ | ⟨hn, ht, changes, hc, he⟩
  · refine ⟨ServerCall.Formatting (D.URI b), ?_⟩
    simp [formatCurrentBuffer, ht, hb, hf]
  · refine ⟨ServerCall.CodeAction (D.URI b), ?_⟩
    have hn2 : ¬ (D.FormatOnSaveGoImports = D.FormatOnSaveGoFmt) := by
      rw [← ht]; exact hn
    simp [formatCurrentBuffer, ht, hn2, hb, hc, he]

theorem applyEdits_loop (D : Deps) (g : State) (b : Buffer) (edits : List TextEdit) :
    (applyEdits D g b edits).2
      = (editLoop D b edits.reverse (g.vim.ChannelEx (.setEventignore "all"))).2 ∧
    (applyEdits D g b edits).1.vim.bufs
      = (editLoop D b edits.reverse (g.vim.ChannelEx (.setEventignore "all"))).1.bufs ∧
    (applyEdits D g b edits).1.vim.log
      = (editLoop D b edits.reverse (g.vim.ChannelEx (.setEventignore "all"))).1.log
        ++ [VimCall.ex (.setEventignore g.vim.eventignore)] := by
  simp [applyEdits, State.ToggleOnViewportChange, Vim.ChannelEx]

/-- C5: for every buffer and every batch of supported whole-line edits given in ascending
document order with non-overlapping line ranges inside the buffer, formatCurrentBuffer
(which applies the last edit first) returns no error and leaves the buffer equal to the
original content with every edit applied at its original coordinates. -/
theorem formatCurrentBuffer_applies_at_original (D : Deps) (g : State) (b : Buffer)
    (formatting : Except String (List TextEdit))
    (codeAction : Except String (List CodeAction)) (edits : List TextEdit)
    (ops : List LineOp) (lines : List String)
    (hb : g.buffers g.vim.cur = some b) (hnum : b.Num = g.vim.cur)
    (hret : Returned D g b formatting codeAction edits)
    (hlines : g.vim.bufs g.vim.cur = some lines)
    (hops : edits.map (lineOp D b) = ops.map some)
    (hord : inOrder 1 (lines.length + 1) ops = true) :
    (formatCurrentBuffer D g formatting codeAction).2 = .ok () ∧
    (formatCurrentBuffer D g formatting codeAction).1.vim.bufs g.vim.cur
      = some (applyAtOriginal 1 lines ops) := by
  obtain ⟨call, hcall⟩ := formatCurrentBuffer_of_returned D g b formatting codeAction edits hb hret
  have hl := applyEdits_loop D { g with server := g.server ++ [call] } b edits
  have hmap : edits.reverse.map (lineOp D b) = ops.reverse.map some := by
    rw [List.map_reverse, List.map_reverse, hops]
  have hloop := editLoop_applies D b edits.reverse ops.reverse
    (g.vim.ChannelEx (.setEventignore "all")) lines hmap
    (by simp [Vim.ChannelEx, hnum]) (by simpa [Vim.ChannelEx, hnum] using hlines)
    (by simpa using hord)
  rw [hcall, hl.1, hl.2.1, ← hnum]
  simpa using hloop

/-- C5 (witness): the batch inserting "x := 1" at line 1 and deleting line 3 of the four
lines l1..l4 yields the insertion at the original top and the original line 3 removed. -/
theorem formatCurrentBuffer_applies_at_original_witness :
    state2.buffers state2.vim.cur = some bufL ∧
    state2.vim.bufs state2.vim.cur = some ["l1", "l2", "l3", "l4"] ∧
    [insertTop, deleteThird].map (lineOp plainDeps bufL)
      = [some ⟨1, 1, ["x := 1"]⟩, some ⟨3, 4, []⟩] ∧
    inOrder 1 5 [⟨1, 1, ["x := 1"]⟩, ⟨3, 4, []⟩] = true ∧
    (formatCurrentBuffer plainDeps state2 (.ok [insertTop, deleteThird]) (.ok [])).2 = .ok () ∧
    (formatCurrentBuffer plainDeps state2 (.ok [insertTop, deleteThird]) (.ok [])).1.vim.bufs 1
      = some ["x := 1", "l1", "l2", "l4"] :=
  have h := formatCurrentBuffer_applies_at_original plainDeps state2 bufL
    (.ok [insertTop, deleteThird]) (.ok []) [insertTop, deleteThird]
    [⟨1, 1, ["x := 1"]⟩, ⟨3, 4, []⟩] ["l1", "l2", "l3", "l4"]
    rfl rfl (Or.inl ⟨rfl, rfl⟩) rfl (by decide) (by decide)
  ⟨rfl, rfl, by decide, by decide, h.1, h.2⟩

/-! ## Theorems: unsupported edits -/

theorem editLoop_unsupported_head (D : Deps) (b : Buffer) (e : TextEdit)
    (rest : List TextEdit) (v : Vim) (hbad : unsupported D b e = true) :
    ∃ err, editLoop D b (e :: rest) v = (v, .error err) := by
  unfold unsupported at hbad
  cases hs : D.PointFromPosition b e.Range.Start with
  | error err => simp [hs] at hbad
  | ok s =>
    cases ht : D.PointFromPosition b e.Range.End with
    | error err => simp [hs, ht] at hbad
    | ok t =>
      simp only [hs, ht, Bool.or_eq_true, Bool.and_eq_true, decide_eq_true_eq] at hbad
      rw [editLoop]
      simp only [hs, ht]
      by_cases hcol : s.Col ≠ 1 ∨ t.Col ≠ 1
      · exact ⟨_, by rw [if_pos hcol]⟩
      · have hline : s.Line ≠ t.Line ∧ e.NewText ≠ "" := by
          rcases hbad with h | h
          · exact absurd h hcol
          · exact h
        exact ⟨_, by rw [if_neg hcol, if_pos hline.1, if_pos hline.2]⟩

theorem editLoop_unsupported_error (D : Deps) (b : Buffer) (es : List TextEdit) :
    ∀ v : Vim, (∃ e ∈ es, unsupported D b e = true) →
      ∃ err, (editLoop D b es v).2 = .error err := by
  induction es with
  | nil => intro v h; simp at h
  | cons e rest ih =>
    intro v h
    by_cases he : unsupported D b e = true
    · obtain ⟨err, herr⟩ := editLoop_unsupported_head D b e rest v he
      exact ⟨err, by rw [herr]⟩
    · have hrest : ∃ e' ∈ rest, unsupported D b e' = true := by
        obtain ⟨e', hmem, hb'⟩ := h
        rcases List.mem_cons.mp hmem with rfl | hmem
        · exact absurd hb' he
        · exact ⟨e', hmem, hb'⟩
      rw [editLoop]
      split
      · exact ⟨_, rfl⟩
      · split
        · exact ⟨_, rfl⟩
        · split
          · exact ⟨_, rfl⟩
          · split
            · split
              · exact ⟨_, rfl⟩
              · dsimp only
                split
                · exact ⟨_, rfl⟩
                · exact ih _ hrest
            · split
              · exact ih _ hrest
              · exact ih _ hrest

/-- C4 (amended): for every batch of edits containing at least one unsupported edit (a start
or end point not at column 1 in editor space, or a multi-line span with non-empty
replacement text) at any index, formatCurrentBuffer returns an error; and when the
unsupported edit is the last edit of the batch, the editor is sent nothing but the two
`set eventignore=` commands, so no append or deletebufline has been issued and the buffer
content after the call equals the content before it. -/
theorem formatCurrentBuffer_unsupported (D : Deps) (g : State) (b : Buffer)
    (formatting : Except String (List TextEdit))
    (codeAction : Except String (List CodeAction)) (edits : List TextEdit)
    (hb : g.buffers g.vim.cur = some b)
    (hret : Returned D g b formatting codeAction edits)
    (hbad : ∃ e ∈ edits, unsupported D b e = true) :
    (∃ err, (formatCurrentBuffer D g formatting codeAction).2 = .error err) ∧
    (∀ pre e, edits = pre ++ [e] → unsupported D b e = true →
      (formatCurrentBuffer D g formatting codeAction).1.vim.bufs = g.vim.bufs ∧
      (formatCurrentBuffer D g formatting codeAction).1.vim.log = g.vim.log ++
        [VimCall.ex (.setEventignore "all"), VimCall.ex (.setEventignore g.vim.eventignore)] ∧
      (((formatCurrentBuffer D g formatting codeAction).1.vim.log.drop g.vim.log.length).all
        (fun c => !c.changesLines)) = true) := by
  obtain ⟨call, hcall⟩ := formatCurrentBuffer_of_returned D g b formatting codeAction edits hb hret
  have hl := applyEdits_loop D { g with server := g.server ++ [call] } b edits
  rw [hcall, hl.1, hl.2.1, hl.2.2]
  constructor
  · apply editLoop_unsupported_error
    obtain ⟨e, hmem, he⟩ := hbad
    exact ⟨e, by simpa using hmem, he⟩
  · rintro pre e rfl he
    obtain ⟨err, herr⟩ := editLoop_unsupported_head D b e pre.reverse
      (g.vim.ChannelEx (.setEventignore "all")) he
    rw [List.reverse_append, List.reverse_singleton, List.singleton_append, herr]
    simp [Vim.ChannelEx, VimCall.changesLines]

/-- C4 (witness): the batch [deleteThird, midLine], whose last edit is inside a line, is
refused with the lines l1..l4 untouched. -/
theorem formatCurrentBuffer_unsupported_witness :
    unsupported plainDeps bufL midLine = true ∧
    (∃ err, (formatCurrentBuffer plainDeps state2 (.ok [deleteThird, midLine]) (.ok [])).2
      = .error err) ∧
    (formatCurrentBuffer plainDeps state2 (.ok [deleteThird, midLine]) (.ok [])).1.vim.bufs
      = state2.vim.bufs ∧
    (formatCurrentBuffer plainDeps state2 (.ok [deleteThird, midLine]) (.ok [])).1.vim.log
      = state2.vim.log ++
        [VimCall.ex (.setEventignore "all"),
          VimCall.ex (.setEventignore state2.vim.eventignore)] ∧
    (((formatCurrentBuffer plainDeps state2 (.ok [deleteThird, midLine])
        (.ok [])).1.vim.log.drop state2.vim.log.length).all
      (fun c => !c.changesLines)) = true :=
  have h := formatCurrentBuffer_unsupported plainDeps state2 bufL
    (.ok [deleteThird, midLine]) (.ok []) [deleteThird, midLine] rfl (Or.inl ⟨rfl, rfl⟩)
    ⟨midLine, by simp, by decide⟩
  have h2 := h.2 [deleteThird] midLine rfl (by decide)
  ⟨by decide, h.1, h2.1, h2.2.1, h2.2.2⟩

/-- C4 (counterexample): in the batch [midLine, deleteThird] the unsupported edit is at
index 0; the call returns the column error, but the deletion at index 1 has already been
issued and line 3 is gone. -/
theorem unsupported_first_edit_buffer_changed :
    unsupported plainDeps bufL midLine = true ∧
    (formatCurrentBuffer plainDeps state2 (.ok [midLine, deleteThird]) (.ok [])).2
      = .error (Err.colNotOne 1 3 1 3) ∧
    state2.vim.bufs 1 = some ["l1", "l2", "l3", "l4"] ∧
    (formatCurrentBuffer plainDeps state2 (.ok [midLine, deleteThird]) (.ok [])).1.vim.bufs 1
      = some ["l1", "l2", "l4"] ∧
    (formatCurrentBuffer plainDeps state2 (.ok [midLine, deleteThird]) (.ok [])).1.vim.log
      = [VimCall.ex (.setEventignore "all"), VimCall.deletebufline 1 3 3,
          VimCall.ex (.setEventignore "")] ∧
    ((formatCurrentBuffer plainDeps state2 (.ok [midLine, deleteThird])
        (.ok [])).1.vim.log.any VimCall.changesLines) = true := by
  decide

/-! ## Theorems: the document version plays no part in formatting -/

theorem editLoop_version (D : Deps) (b : Buffer) (ver : Int)
    (hD : ∀ (b : Buffer) (w : Int) (pos : Position),
      D.PointFromPosition { b with Version := w } pos = D.PointFromPosition b pos)
    (es : List TextEdit) :
    ∀ v : Vim, editLoop D { b with Version := ver } es v = editLoop D b es v := by
  induction es with
  | nil => intro v; rfl
  | cons e rest ih =>
    intro v
    rw [editLoop, editLoop]
    simp only [hD, ih]

theorem applyEdits_version (D : Deps) (g g' : State) (b : Buffer) (ver : Int)
    (hD : ∀ (b : Buffer) (w : Int) (pos : Position),
      D.PointFromPosition { b with Version := w } pos = D.PointFromPosition b pos)
    (edits : List TextEdit) (hvim : g'.vim = g.vim) :
    (applyEdits D g' { b with Version := ver } edits).2 = (applyEdits D g b edits).2 ∧
    (applyEdits D g' { b with Version := ver } edits).1.vim = (applyEdits D g b edits).1.vim := by
  simp [applyEdits, State.ToggleOnViewportChange, editLoop_version D b ver hD, hvim]

theorem formatCurrentBuffer_holding (D : Deps) (g : State) (b : Buffer) (ver : Int)
    (formatting : Except String (List TextEdit))
    (codeAction : Except String (List CodeAction))
    (hD : ∀ (b : Buffer) (w : Int) (pos : Position),
      D.PointFromPosition { b with Version := w } pos = D.PointFromPosition b pos)
    (hU : ∀ (b : Buffer) (w : Int), D.URI { b with Version := w } = D.URI b) :
    (formatCurrentBuffer D (g.holding b ver) formatting codeAction).2
      = (formatCurrentBuffer D (g.holding b b.Version) formatting codeAction).2 ∧
    (formatCurrentBuffer D (g.holding b ver) formatting codeAction).1.vim
      = (formatCurrentBuffer D (g.holding b b.Version) formatting codeAction).1.vim := by
  unfold formatCurrentBuffer
  simp only [State.holding, setKey_same, hU]
  split
  · cases formatting with
    | error err => exact ⟨rfl, rfl⟩
    | ok edits => exact applyEdits_version D _ _ b ver hD edits rfl
  · split
    · cases codeAction with
      | error err => exact ⟨rfl, rfl⟩
      | ok actions =>
        match actions with
        | [] => exact ⟨rfl, rfl⟩
        | [a] =>
          cases hch : a.Edit.Changes with
          | none => simp only [hch]; trivial
          | some changes =>
            simp only [hch]
            exact applyEdits_version D _ _ b ver hD _ rfl
        | _ :: _ :: _ => exact ⟨rfl, rfl⟩
    · exact ⟨rfl, rfl⟩

/-- C3 (amended): formatCurrentBuffer compares no versions. For every batch of edits,
whatever version the store holds for the target buffer, the call returns the same result
and leaves the editor (commands received, buffer lines) in the same state as when the
store holds exactly the version the batch was computed for, provided the position
conversion and the document identity do not depend on the version. A batch computed for
another version is therefore applied or refused exactly like a current one. -/
theorem formatCurrentBuffer_ignores_version (D : Deps) (g : State) (b : Buffer)
    (stored : Int) (batch : EditBatch) (codeAction : Except String (List CodeAction))
    (hD : ∀ (b : Buffer) (w : Int) (pos : Position),
      D.PointFromPosition { b with Version := w } pos = D.PointFromPosition b pos)
    (hU : ∀ (b : Buffer) (w : Int), D.URI { b with Version := w } = D.URI b) :
    (formatCurrentBuffer D (g.holding b stored) (.ok batch.Edits) codeAction).2
      = (formatCurrentBuffer D (g.holding b batch.Version) (.ok batch.Edits) codeAction).2 ∧
    (formatCurrentBuffer D (g.holding b stored) (.ok batch.Edits) codeAction).1.vim
      = (formatCurrentBuffer D (g.holding b batch.Version) (.ok batch.Edits) codeAction).1.vim := by
  have h1 := formatCurrentBuffer_holding D g b stored (.ok batch.Edits) codeAction hD hU
  have h2 := formatCurrentBuffer_holding D g b batch.Version (.ok batch.Edits) codeAction hD hU
  exact ⟨h1.1.trans h2.1.symm, h1.2.trans h2.2.symm⟩

/-- C3 (witness): the batch computed for version 0, on the store holding version 1. -/
theorem formatCurrentBuffer_ignores_version_witness :
    (formatCurrentBuffer plainDeps (state2.holding bufL 1) (.ok staleBatch.Edits) (.ok [])).2
      = (formatCurrentBuffer plainDeps (state2.holding bufL staleBatch.Version)
          (.ok staleBatch.Edits) (.ok [])).2 ∧
    (formatCurrentBuffer plainDeps (state2.holding bufL 1) (.ok staleBatch.Edits) (.ok [])).1.vim
      = (formatCurrentBuffer plainDeps (state2.holding bufL staleBatch.Version)
          (.ok staleBatch.Edits) (.ok [])).1.vim :=
  formatCurrentBuffer_ignores_version plainDeps state2 bufL 1 staleBatch (.ok [])
    (fun _ _ _ => rfl) (fun _ _ => rfl)

/-- C3 (counterexample): the store holds version 1 of the buffer and the batch was computed
for version 0; the call returns no error, issues the deletebufline, and line 3 is gone. -/
theorem stale_batch_is_applied :
    state2.versionOf state2.vim.cur = some 1 ∧
    staleBatch.Version ≠ 1 ∧
    (formatCurrentBuffer plainDeps state2 (.ok staleBatch.Edits) (.ok [])).2 = .ok () ∧
    state2.vim.bufs 1 = some ["l1", "l2", "l3", "l4"] ∧
    (formatCurrentBuffer plainDeps state2 (.ok staleBatch.Edits) (.ok [])).1.vim.bufs 1
      = some ["l1", "l2", "l4"] ∧
    (formatCurrentBuffer plainDeps state2 (.ok staleBatch.Edits) (.ok [])).1.vim.log
      = [VimCall.ex (.setEventignore "all"), VimCall.deletebufline 1 3 3,
          VimCall.ex (.setEventignore "")] ∧
    ((formatCurrentBuffer plainDeps state2 (.ok staleBatch.Edits)
        (.ok [])).1.vim.log.any VimCall.changesLines) = true := by
  decide

end Govim
